import Mathlib

/-!
# mpb: proxy reader and speed decorators

A shallow embedding of `proxyreader.go` and `decor/speed.go`.

* The owning `*Bar` of a proxy is represented by the list of method calls it
  has received (`World.bar`), oldest first.
* A wrapped stream is a record of its methods over an external state `σ`;
  optional methods (`Close`, `WriteTo`) are `Option`s, which is how the
  dynamic method set of a Go interface value is rendered.
* `time.Now` reads `World.clock`; a stream operation reports how long it took.
-/

namespace Mpb

/-! ## Definitions: proxyreader.go -/

/-- A Go `error` value. -/
structure GoError where
  msg : String
deriving DecidableEq, Repr

/-- A method call received by the owning bar (`x.bar.…` in `proxyreader.go`). -/
inductive BarCall where
  | IncrBy (n : Int)
  | IncrInt64 (n : Int)
  | DecoratorEwmaUpdate (dur : Int)
deriving DecidableEq, Repr

/-- The result of one `Read` or `WriteTo` of a wrapped stream: the Go pair
`(n, err)`, the stream's next state and the time the call took (ns). -/
structure IOResult (σ : Type) where
  n : Int
  err : Option GoError
  next : σ
  took : Nat

/-- An `io.Reader` value `r`: `Read` is always there, `Close` and `WriteTo`
only when the dynamic type of `r` has them. `Read` gets `len(p)`,
`WriteTo` gets the sink `w`. -/
structure Reader (σ ω : Type) where
  Read : σ → Nat → IOResult σ
  Close : Option (σ → Option GoError × σ)
  WriteTo : Option (σ → ω → IOResult σ)

/-- An `io.ReadCloser` value: `Read` and `Close` are there, `WriteTo` when the
dynamic type has it. -/
structure ReadCloser (σ ω : Type) where
  Read : σ → Nat → IOResult σ
  Close : σ → Option GoError × σ
  WriteTo : Option (σ → ω → IOResult σ)

/-- Everything a proxy call can touch: the wrapped stream's state, the clock
and the calls the owning bar has received. -/
structure World (σ : Type) where
  stream : σ
  clock : Int
  bar : List BarCall

/-- The Go pair `(n, err)` returned to the caller, with the world after the call. -/
abbrev Ret (σ : Type) := (Int × Option GoError) × World σ

/-- Standard library `io.NopCloser` (Go 1.19 and later): a `ReadCloser` with a
no-op `Close` wrapping `r`; if `r` implements `WriterTo` the result is a
`nopCloserWriterTo` that forwards `WriteTo` to `r`, otherwise a `nopCloser`. -/
def NopCloser {σ ω : Type} (r : Reader σ ω) : ReadCloser σ ω :=
  match r.WriteTo with
  | some wt => { Read := r.Read, Close := fun s => (none, s), WriteTo := some wt }
  | none => { Read := r.Read, Close := fun s => (none, s), WriteTo := none }

/-- `toReadCloser`: `r` itself when it is an `io.ReadCloser`, else `io.NopCloser(r)`. -/
def toReadCloser {σ ω : Type} (r : Reader σ ω) : ReadCloser σ ω :=
  match r.Close with
  | some c => { Read := r.Read, Close := c, WriteTo := r.WriteTo }
  | none => NopCloser r

/-- `type proxyReader struct { io.ReadCloser; bar *Bar }`; the bar is `World.bar`. -/
structure proxyReader (σ ω : Type) where
  ReadCloser : ReadCloser σ ω

/-- `type proxyWriterTo struct { proxyReader }`. -/
structure proxyWriterTo (σ ω : Type) where
  proxyReader : proxyReader σ ω

/-- `type ewmaProxyReader struct { proxyReader }`. -/
structure ewmaProxyReader (σ ω : Type) where
  proxyReader : proxyReader σ ω

/-- `type ewmaProxyWriterTo struct { ewmaProxyReader }`. -/
structure ewmaProxyWriterTo (σ ω : Type) where
  ewmaProxyReader : ewmaProxyReader σ ω

/-- `x.bar.IncrBy(n)`. -/
def World.IncrBy {σ : Type} (w : World σ) (n : Int) : World σ :=
  { w with bar := w.bar ++ [BarCall.IncrBy n] }

/-- `x.bar.IncrInt64(n)`. -/
def World.IncrInt64 {σ : Type} (w : World σ) (n : Int) : World σ :=
  { w with bar := w.bar ++ [BarCall.IncrInt64 n] }

/-- `x.bar.DecoratorEwmaUpdate(dur)`. -/
def World.DecoratorEwmaUpdate {σ : Type} (w : World σ) (dur : Int) : World σ :=
  { w with bar := w.bar ++ [BarCall.DecoratorEwmaUpdate dur] }

/-- The world after a stream operation with result `r`. -/
def World.after {σ : Type} (w : World σ) (r : IOResult σ) : World σ :=
  { w with stream := r.next, clock := w.clock + r.took }

/-- `time.Since(start)`. -/
def World.Since {σ : Type} (w : World σ) (start : Int) : Int :=
  w.clock - start

/-- `func (x proxyReader) Read(p []byte) (int, error)`. -/
def proxyReader.Read {σ ω : Type} (x : proxyReader σ ω) (p : Nat) (w : World σ) : Ret σ :=
  let r := x.ReadCloser.Read w.stream p
  let w := w.after r
  let w := w.IncrBy r.n
  ((r.n, r.err), w)

/-- `func (x proxyWriterTo) WriteTo(w io.Writer) (int64, error)`; `none` is the
panic of the failed type assertion `x.ReadCloser.(io.WriterTo)`. -/
def proxyWriterTo.WriteTo {σ ω : Type} (x : proxyWriterTo σ ω) (sink : ω) (w : World σ) :
    Option (Ret σ) :=
  match x.proxyReader.ReadCloser.WriteTo with
  | none => none
  | some wt =>
    let r := wt w.stream sink
    let w := w.after r
    let w := w.IncrInt64 r.n
    some ((r.n, r.err), w)

/-- `func (x ewmaProxyReader) Read(p []byte) (int, error)`. -/
def ewmaProxyReader.Read {σ ω : Type} (x : ewmaProxyReader σ ω) (p : Nat) (w : World σ) : Ret σ :=
  let start := w.clock
  let (res, w) := x.proxyReader.Read p w
  let w := if res.1 > 0 then w.DecoratorEwmaUpdate (w.Since start) else w
  (res, w)

/-- `func (x ewmaProxyWriterTo) WriteTo(w io.Writer) (int64, error)`; `none` is
the panic of the failed type assertion `x.ReadCloser.(io.WriterTo)`. -/
def ewmaProxyWriterTo.WriteTo {σ ω : Type} (x : ewmaProxyWriterTo σ ω) (sink : ω)
    (w : World σ) : Option (Ret σ) :=
  let start := w.clock
  match x.ewmaProxyReader.proxyReader.ReadCloser.WriteTo with
  | none => none
  | some wt =>
    let r := wt w.stream sink
    let w := w.after r
    let w := if r.n > 0 then w.DecoratorEwmaUpdate (w.Since start) else w
    some ((r.n, r.err), w)

/-- The `io.ReadCloser` returned by `newProxyReader`: one of four dynamic types. -/
inductive Proxy (σ ω : Type) where
  | pr (x : proxyReader σ ω)
  | pwt (x : proxyWriterTo σ ω)
  | epr (x : ewmaProxyReader σ ω)
  | epwt (x : ewmaProxyWriterTo σ ω)

/-- `func (b *Bar) newProxyReader(r io.Reader, hasEwma bool) io.ReadCloser`. -/
def newProxyReader {σ ω : Type} (r : Reader σ ω) (hasEwma : Bool) : Proxy σ ω :=
  let pr : proxyReader σ ω := { ReadCloser := toReadCloser r }
  if hasEwma then
    let epr : ewmaProxyReader σ ω := { proxyReader := pr }
    if r.WriteTo.isSome then
      Proxy.epwt { ewmaProxyReader := epr }
    else
      Proxy.epr epr
  else if r.WriteTo.isSome then
    Proxy.pwt { proxyReader := pr }
  else
    Proxy.pr pr

/-- The embedded `io.ReadCloser` (a promoted field in all four types). -/
def Proxy.ReadCloser {σ ω : Type} : Proxy σ ω → Mpb.ReadCloser σ ω
  | Proxy.pr x => x.ReadCloser
  | Proxy.pwt x => x.proxyReader.ReadCloser
  | Proxy.epr x => x.proxyReader.ReadCloser
  | Proxy.epwt x => x.ewmaProxyReader.proxyReader.ReadCloser

/-- The `Read` in the method set of each type: its own (`proxyReader`,
`ewmaProxyReader`) or the one promoted from the embedded struct. -/
def Proxy.Read {σ ω : Type} : Proxy σ ω → Nat → World σ → Ret σ
  | Proxy.pr x => x.Read
  | Proxy.pwt x => x.proxyReader.Read
  | Proxy.epr x => x.Read
  | Proxy.epwt x => x.ewmaProxyReader.Read

/-- The `Close` in the method set of each type: none declares one, so it is the
one promoted from the embedded `io.ReadCloser`. -/
def Proxy.Close {σ ω : Type} (x : Proxy σ ω) (w : World σ) : Option GoError × World σ :=
  let (err, s) := x.ReadCloser.Close w.stream
  (err, { w with stream := s })

/-- The type assertion to `io.WriterTo` on the returned value: the method when
the dynamic type has one. (The embedded field is an interface of methods
`Read` and `Close`, so nothing else is promoted.) -/
def Proxy.WriterTo {σ ω : Type} : Proxy σ ω → Option (ω → World σ → Option (Ret σ))
  | Proxy.pr _ => none
  | Proxy.pwt x => some x.WriteTo
  | Proxy.epr _ => none
  | Proxy.epwt x => some x.WriteTo

/-- The amount an increment call asks the bar to add (`DecoratorEwmaUpdate` adds nothing). -/
def BarCall.amount : BarCall → Option Int
  | BarCall.IncrBy n => some n
  | BarCall.IncrInt64 n => some n
  | BarCall.DecoratorEwmaUpdate _ => none

/-- The increments a bar has been asked for, in order. -/
def increments (calls : List BarCall) : List Int :=
  calls.filterMap BarCall.amount

/-- Consecutive `Read` calls on a proxy, one per buffer length in `ps`. -/
def readAll {σ ω : Type} (x : Proxy σ ω) : List Nat → World σ → List (Int × Option GoError) × World σ
  | [], w => ([], w)
  | p :: ps, w =>
    let (res, w1) := x.Read p w
    let (rest, w2) := readAll x ps w1
    (res :: rest, w2)

/-- Consecutive `Read` calls on the wrapped stream itself. -/
def rawReads {σ ω : Type} (r : Reader σ ω) : List Nat → σ → List (Int × Option GoError)
  | [], _ => []
  | p :: ps, s =>
    let res := r.Read s p
    (res.n, res.err) :: rawReads r ps res.next

/-- `io.EOF`. -/
def EOF : GoError := { msg := "EOF" }

/-- A stream of `s` remaining bytes, like `bytes.Reader`: `Read` and `WriteTo`,
no `Close`. Each call takes 7 ns. -/
def bytesReader : Reader Nat Unit :=
  { Read := fun s p =>
      if s = 0 then { n := 0, err := some EOF, next := 0, took := 7 }
      else { n := min p s, err := none, next := s - min p s, took := 7 }
    Close := none
    WriteTo := some (fun s _ => { n := s, err := none, next := 0, took := 7 }) }

/-- A stream with `Read`, `Close` and `WriteTo` whose every call fails after
moving 3 bytes; `Close` counts its calls in the state. -/
def failingFile : Reader Nat Unit :=
  { Read := fun s _ => { n := 3, err := some { msg := "disk" }, next := s, took := 5 }
    Close := some (fun s => (some { msg := "closed" }, s + 1))
    WriteTo := some (fun s _ => { n := 3, err := some { msg := "disk" }, next := s, took := 5 }) }

/-- The world before any call. -/
def World.init {σ : Type} (s : σ) : World σ :=
  { stream := s, clock := 0, bar := [] }

/-! ## Definitions: float64

A `float64` is a finite rational (the value after rounding), an infinity or a
NaN. The sign of zero is not represented: `float64(n)` of an integer is never
`-0`, and no comparison in `speed.go` tells the zeros apart. -/

/-- A `float64` value. -/
inductive F64 where
  | finite (q : ℚ)
  | inf (neg : Bool)
  | nan
deriving DecidableEq

/-- `math.MaxFloat64`. -/
def maxFloat64 : ℚ := (2 ^ 53 - 1) * 2 ^ 971

/-- Rounding of an exact result to the `float64` grid (with unbounded exponent),
kept abstract: it is monotone, symmetric, and exact on integers up to `2^53`
and on `2^63`, as round-to-nearest-even is. -/
structure Rounding where
  rnd : ℚ → ℚ
  mono : ∀ a b : ℚ, a ≤ b → rnd a ≤ rnd b
  odd : ∀ a : ℚ, rnd (-a) = -rnd a
  exact_int : ∀ i : ℤ, |i| ≤ 2 ^ 53 → rnd i = i
  exact_two63 : rnd (2 ^ 63) = 2 ^ 63

/-- Exact arithmetic, the rounding of a machine with unbounded precision. -/
def Rounding.exact : Rounding :=
  { rnd := fun q => q
    mono := fun _ _ h => h
    odd := fun _ => rfl
    exact_int := fun _ _ => rfl
    exact_two63 := rfl }

/-- The `float64` nearest to the exact value `q`; overflow gives an infinity. -/
def F64.ofRat (R : Rounding) (q : ℚ) : F64 :=
  let r := R.rnd q
  if |r| > maxFloat64 then F64.inf (decide (r < 0)) else F64.finite r

/-- The conversion `float64(i)` of an integer. -/
def F64.ofInt (R : Rounding) (i : Int) : F64 :=
  F64.ofRat R i

/-- `x / y` on `float64`. -/
def F64.div (R : Rounding) : F64 → F64 → F64
  | F64.nan, _ => F64.nan
  | _, F64.nan => F64.nan
  | F64.inf _, F64.inf _ => F64.nan
  | F64.inf s, F64.finite b => F64.inf (xor s (decide (b < 0)))
  | F64.finite _, F64.inf _ => F64.finite 0
  | F64.finite a, F64.finite b =>
    if b = 0 then (if a = 0 then F64.nan else F64.inf (decide (a < 0)))
    else F64.ofRat R (a / b)

/-- `x * y` on `float64`. -/
def F64.mul (R : Rounding) : F64 → F64 → F64
  | F64.nan, _ => F64.nan
  | _, F64.nan => F64.nan
  | F64.inf s, F64.inf t => F64.inf (xor s t)
  | F64.inf s, F64.finite b => if b = 0 then F64.nan else F64.inf (xor s (decide (b < 0)))
  | F64.finite a, F64.inf t => if a = 0 then F64.nan else F64.inf (xor (decide (a < 0)) t)
  | F64.finite a, F64.finite b => F64.ofRat R (a * b)

/-- `x > y` on `float64` (false when either is NaN). -/
def F64.gt : F64 → F64 → Bool
  | F64.nan, _ => false
  | _, F64.nan => false
  | F64.finite a, F64.finite b => decide (a > b)
  | F64.inf s, F64.inf t => !s && t
  | F64.inf s, F64.finite _ => !s
  | F64.finite _, F64.inf t => t

/-- `x <= y` on `float64` (false when either is NaN). -/
def F64.le : F64 → F64 → Bool
  | F64.nan, _ => false
  | _, F64.nan => false
  | F64.finite a, F64.finite b => decide (a ≤ b)
  | F64.inf s, F64.inf t => s || !t
  | F64.inf s, F64.finite _ => s
  | F64.finite _, F64.inf t => !t

/-- `math.IsInf(f, sign)`. -/
def F64.IsInf (f : F64) (sign : Int) : Bool :=
  match f with
  | F64.inf neg => (decide (sign ≥ 0) && !neg) || (decide (sign ≤ 0) && neg)
  | _ => false

/-- `math.IsNaN(f)`. -/
def F64.IsNaN : F64 → Bool
  | F64.nan => true
  | _ => false

/-- The range of `int64` (and of `time.Duration`). -/
def isInt64 (i : Int) : Prop := -2 ^ 63 ≤ i ∧ i < 2 ^ 63

instance (i : Int) : Decidable (isInt64 i) := by
  unfold isInt64; infer_instance

/-! ## Definitions: decor/speed.go, the decorators -/

/-- Go `string`. -/
abbrev Str := List Char

/-- The width configuration `WC` embedded in every decorator. It is declared in
another file of package `decor`; the one method used here, `FormatMsg`, is
taken as a function of the message. -/
structure WC where
  FormatMsg : Str → Str

/-- The fields of `decor.Statistics` (declared in another file of the package)
that `speed.go` reads, with the total. -/
structure Statistics where
  Total : Int
  Current : Int
  Completed : Bool

/-- The interface `ewma.MovingAverage` of the external package, as methods over
the accumulator's state `α`. -/
structure MovingAverage (α : Type) where
  Add : α → F64 → α
  Value : α → F64
  Set : α → F64 → α

/-- `type movingAverageSpeed struct { WC; producer; average; msg }`; `acc` is the
state of the accumulator that the interface value `average` points to. -/
structure movingAverageSpeed (α : Type) where
  WC : WC
  producer : F64 → Str
  average : MovingAverage α
  acc : α
  msg : Str

/-- The struct literal of `MovingAverageSpeed`: `producer` is the value of
`chooseSpeedProducer(unit, format)`, `wc` that of `initWC(wcc...)`, and `msg`
is left at its zero value. -/
def MovingAverageSpeed {α : Type} (producer : F64 → Str) (average : MovingAverage α)
    (acc : α) (wc : WC) : movingAverageSpeed α :=
  { WC := wc, producer := producer, average := average, acc := acc, msg := [] }

/-- `func (d *movingAverageSpeed) Decor(s Statistics) string`: the returned text
and the decorator after the call. -/
def movingAverageSpeed.Decor {α : Type} (R : Rounding) (d : movingAverageSpeed α)
    (s : Statistics) : Str × movingAverageSpeed α :=
  let d :=
    if !s.Completed then
      let v := d.average.Value d.acc
      let speed : F64 := if F64.gt v (F64.finite 0) then F64.div R (F64.finite 1) v
        else F64.finite 0
      { d with msg := d.producer (F64.mul R speed (F64.finite 1000000000)) }
    else d
  (d.WC.FormatMsg d.msg, d)

/-- `func (d *movingAverageSpeed) EwmaUpdate(n int64, dur time.Duration)`. -/
def movingAverageSpeed.EwmaUpdate {α : Type} (R : Rounding) (d : movingAverageSpeed α)
    (n : Int) (dur : Int) : movingAverageSpeed α :=
  let durPerByte := F64.div R (F64.ofInt R dur) (F64.ofInt R n)
  if F64.IsInf durPerByte 0 || F64.IsNaN durPerByte then d
  else { d with acc := d.average.Add d.acc durPerByte }

/-- `type averageSpeed struct { WC; startTime; producer; msg }`; times are in
nanoseconds. -/
structure averageSpeed where
  WC : WC
  startTime : Int
  producer : F64 → Str
  msg : Str

/-- The struct literal of `NewAverageSpeed`: `producer` is the value of
`chooseSpeedProducer(unit, format)`, `wc` that of `initWC(wcc...)`, and `msg`
is left at its zero value. -/
def NewAverageSpeed (producer : F64 → Str) (startTime : Int) (wc : WC) : averageSpeed :=
  { WC := wc, startTime := startTime, producer := producer, msg := [] }

/-- `func (d *averageSpeed) Decor(s Statistics) string` called at time `now`:
the returned text and the decorator after the call. -/
def averageSpeed.Decor (R : Rounding) (d : averageSpeed) (s : Statistics) (now : Int) :
    Str × averageSpeed :=
  let d :=
    if !s.Completed then
      let speed := F64.div R (F64.ofInt R s.Current) (F64.ofInt R (now - d.startTime))
      { d with msg := d.producer (F64.mul R speed (F64.finite 1000000000)) }
    else d
  (d.WC.FormatMsg d.msg, d)

/-- `func (d *averageSpeed) AverageAdjust(startTime time.Time)`. -/
def averageSpeed.AverageAdjust (d : averageSpeed) (startTime : Int) : averageSpeed :=
  { d with startTime := startTime }

/-- A call on a `movingAverageSpeed`. -/
inductive MovingCall where
  | Decor (s : Statistics)
  | EwmaUpdate (n : Int) (dur : Int)

/-- A `Decor` call of a snapshot that is not completed: the calls that recompute. -/
def MovingCall.live : MovingCall → Bool
  | MovingCall.Decor s => !s.Completed
  | MovingCall.EwmaUpdate _ _ => false

/-- The decorator after a call. -/
def movingAverageSpeed.call {α : Type} (R : Rounding) (d : movingAverageSpeed α) :
    MovingCall → movingAverageSpeed α
  | MovingCall.Decor s => (d.Decor R s).2
  | MovingCall.EwmaUpdate n dur => d.EwmaUpdate R n dur

/-- The decorator after a sequence of calls. -/
def movingAverageSpeed.calls {α : Type} (R : Rounding) (d : movingAverageSpeed α)
    (cs : List MovingCall) : movingAverageSpeed α :=
  cs.foldl (movingAverageSpeed.call R) d

/-- A call on an `averageSpeed`; `Decor` comes with the time of the call. -/
inductive AverageCall where
  | Decor (s : Statistics) (now : Int)
  | AverageAdjust (startTime : Int)

/-- A `Decor` call of a snapshot that is not completed: the calls that recompute. -/
def AverageCall.live : AverageCall → Bool
  | AverageCall.Decor s _ => !s.Completed
  | AverageCall.AverageAdjust _ => false

/-- The decorator after a call. -/
def averageSpeed.call (R : Rounding) (d : averageSpeed) : AverageCall → averageSpeed
  | AverageCall.Decor s now => (d.Decor R s now).2
  | AverageCall.AverageAdjust t => d.AverageAdjust t

/-- The decorator after a sequence of calls. -/
def averageSpeed.calls (R : Rounding) (d : averageSpeed) (cs : List AverageCall) :
    averageSpeed :=
  cs.foldl (averageSpeed.call R) d

/-- An accumulator that keeps every sample, newest last, and reports the last. -/
def sampleLog : MovingAverage (List F64) :=
  { Add := fun l x => l ++ [x]
    Value := fun l => l.getLastD (F64.finite 0)
    Set := fun _ x => [x] }

/-- The text of a rate, for examples: `+` when it is above zero, `0` otherwise. -/
def demoProducer (x : F64) : Str :=
  if F64.gt x (F64.finite 0) then ['+'] else ['0']

/-- A width configuration that puts the message in brackets. -/
def demoWC : WC :=
  { FormatMsg := fun m => '[' :: m ++ [']'] }

/-- A moving-average decorator over `sampleLog`, as built by `MovingAverageSpeed`. -/
def demoMoving : movingAverageSpeed (List F64) :=
  MovingAverageSpeed demoProducer sampleLog [] demoWC

/-- An average decorator started at time 0, as built by `NewAverageSpeed`. -/
def demoAverage : averageSpeed :=
  NewAverageSpeed demoProducer 0 demoWC

/-- `demoMoving` after one sample of 100 ns for 4 bytes, in exact arithmetic. -/
def demoMovingFed : movingAverageSpeed (List F64) :=
  demoMoving.EwmaUpdate Rounding.exact 4 100

/-- A snapshot of a bar in progress. -/
def demoLive : Statistics :=
  { Total := 100, Current := 10, Completed := false }

/-- A snapshot of a completed bar. -/
def demoDone : Statistics :=
  { Total := 100, Current := 100, Completed := true }

/-- The calls made on `demoMovingShown` after its last recomputation. -/
def demoMovingCalls : List MovingCall :=
  [MovingCall.EwmaUpdate 8 100, MovingCall.Decor demoDone, MovingCall.EwmaUpdate 0 5]

/-- The calls made on `demoAverage` since it was built. -/
def demoAverageCalls : List AverageCall :=
  [AverageCall.Decor demoDone 50, AverageCall.AverageAdjust 7]

/-- `demoMovingFed` after a render in progress. -/
def demoMovingShown : movingAverageSpeed (List F64) :=
  (demoMovingFed.Decor Rounding.exact demoLive).2

/-! ## Definitions: decor/speed.go, `FmtAsSpeed` and the producers

`fmt.Sprintf` belongs to the standard library. `Sprintf` below follows its
scanner (`doPrintf`) for one operand that is printed through a `Format` method,
on the directives made of flags, a width and a precision written in digits and
a verb; for what is left out (argument indexes `[n]`, `*`, the verbs `T`, `p`
and `w`, numbers of more than six digits, a panic inside `Format`) it returns
`none`. -/

/-- The flags, width and precision of a directive, as `fmt.State` reports them. -/
structure Flags where
  sharp : Bool
  zero : Bool
  plus : Bool
  minus : Bool
  space : Bool
  wid : Option Nat
  prec : Option Nat
deriving DecidableEq

/-- The flags at the start of a directive (`clearflags`). -/
def Flags.clear : Flags :=
  { sharp := false, zero := false, plus := false, minus := false, space := false,
    wid := none, prec := none }

/-- A `fmt.State` as the printer of package `fmt` implements it: the text
written so far and the flags of the directive. -/
structure State where
  buf : Str
  fl : Flags
deriving DecidableEq

/-- `io.WriteString(st, s)` on the printer: the error (always nil, the printer's
`Write` cannot fail) and the state after the write. -/
def State.WriteString (st : State) (s : Str) : Option GoError × State :=
  (none, { st with buf := st.buf ++ s })

/-- A `fmt.Formatter`: its method `Format(st, verb)`; an error stands for a panic. -/
structure Formatter where
  Format : State → Char → Except GoError State

/-- `type speedFormatter struct { fmt.Formatter }`. -/
structure speedFormatter where
  Formatter : Formatter

/-- `func (self speedFormatter) Format(st fmt.State, verb rune)`. -/
def speedFormatter.Format (self : speedFormatter) (st : State) (verb : Char) :
    Except GoError State :=
  match self.Formatter.Format st verb with
  | Except.error e => Except.error e
  | Except.ok st =>
    match st.WriteString ['/', 's'] with
    | (some err, _) => Except.error err
    | (none, st) => Except.ok st

/-- `func FmtAsSpeed(input fmt.Formatter) fmt.Formatter`. -/
def FmtAsSpeed (input : Formatter) : Formatter :=
  { Format := speedFormatter.Format { Formatter := input } }

/-- An operand of `Sprintf`: the name of its type and how it is printed for a
verb (its `Format` method, or the printer's own formatting for a `float64`). -/
structure Operand where
  typeName : Str
  Format : State → Char → Except GoError State

/-- Where the scanner of `doPrintf` stands: in plain text, among the flags after
`%`, in the digits of the width (with their count), right after the `.`, or in
the digits of the precision (with their count). -/
inductive Mode where
  | text
  | flags
  | width (k : Nat)
  | dot
  | prec (k : Nat)
deriving DecidableEq

/-- The printer `pp`: its buffer, the flags of the current directive and the
number of operands consumed. -/
structure Printer where
  buf : Str
  fl : Flags
  argNum : Nat

/-- The byte is a decimal digit: `'0' <= c && c <= '9'`. -/
def isDigit (c : Char) : Bool :=
  decide (48 ≤ c.toNat ∧ c.toNat ≤ 57)

/-- The value of a decimal digit: `c - '0'`. -/
def digitVal (c : Char) : Nat :=
  c.toNat - 48

/-- The verb `c` has been read: `%%` writes a percent sign, a verb with no
operand left writes `%!c(MISSING)`, and any other verb prints the operand. -/
def Printer.verb (a : Operand) (p : Printer) (c : Char) : Option (Mode × Printer) :=
  if c = '[' then none
  else if c = '%' then some (Mode.text, { p with buf := p.buf ++ ['%'] })
  else if p.argNum ≥ 1 then
    some (Mode.text, { p with buf := p.buf ++ ['%', '!', c] ++ "(MISSING)".toList })
  else if c = 'T' ∨ c = 'p' ∨ c = 'w' then none
  else
    match a.Format { buf := p.buf, fl := p.fl } c with
    | Except.ok st => some (Mode.text, { buf := st.buf, fl := p.fl, argNum := p.argNum + 1 })
    | Except.error _ => none

/-- One byte of the format string. -/
def Printer.step (a : Operand) : Mode → Printer → Char → Option (Mode × Printer)
  | Mode.text, p, c =>
    if c = '%' then some (Mode.flags, { p with fl := Flags.clear })
    else some (Mode.text, { p with buf := p.buf ++ [c] })
  | Mode.flags, p, c =>
    if c = '#' then some (Mode.flags, { p with fl := { p.fl with sharp := true } })
    else if c = '0' then some (Mode.flags, { p with fl := { p.fl with zero := !p.fl.minus } })
    else if c = '+' then some (Mode.flags, { p with fl := { p.fl with plus := true } })
    else if c = '-' then
      some (Mode.flags, { p with fl := { p.fl with minus := true, zero := false } })
    else if c = ' ' then some (Mode.flags, { p with fl := { p.fl with space := true } })
    else if c = '*' then none
    else if isDigit c then
      some (Mode.width 1, { p with fl := { p.fl with wid := some (digitVal c) } })
    else if c = '.' then some (Mode.dot, { p with fl := { p.fl with prec := some 0 } })
    else p.verb a c
  | Mode.width k, p, c =>
    if isDigit c then
      if k < 6 then
        some (Mode.width (k + 1),
          { p with fl := { p.fl with wid := some (p.fl.wid.getD 0 * 10 + digitVal c) } })
      else none
    else if c = '.' then some (Mode.dot, { p with fl := { p.fl with prec := some 0 } })
    else p.verb a c
  | Mode.dot, p, c =>
    if c = '*' then none
    else if isDigit c then
      some (Mode.prec 1, { p with fl := { p.fl with prec := some (digitVal c) } })
    else p.verb a c
  | Mode.prec k, p, c =>
    if isDigit c then
      if k < 6 then
        some (Mode.prec (k + 1),
          { p with fl := { p.fl with prec := some (p.fl.prec.getD 0 * 10 + digitVal c) } })
      else none
    else p.verb a c

/-- The end of the format string: `%!(NOVERB)` when it ends inside a directive,
and `%!(EXTRA type=value)` when the operand was not used. -/
def Printer.finish (a : Operand) (m : Mode) (p : Printer) : Option Str :=
  let buf := if m = Mode.text then p.buf else p.buf ++ "%!(NOVERB)".toList
  if p.argNum ≥ 1 then some buf
  else
    match a.Format { buf := buf ++ "%!(EXTRA ".toList ++ a.typeName ++ ['='],
                     fl := Flags.clear } 'v' with
    | Except.ok st => some (st.buf ++ [')'])
    | Except.error _ => none

/-- The scanner `doPrintf` over the rest of the format string. -/
def doPrintf (a : Operand) : Mode → Printer → Str → Option Str
  | m, p, [] => p.finish a m
  | m, p, c :: cs =>
    match p.step a m c with
    | none => none
    | some (m1, p1) => doPrintf a m1 p1 cs

/-- `fmt.Sprintf(format, a)` with one operand. -/
def Sprintf (format : Str) (a : Operand) : Option Str :=
  doPrintf a Mode.text { buf := [], fl := Flags.clear, argNum := 0 } format

/-- `math.Round`: the nearest integer, halves away from zero. -/
def F64.Round : F64 → F64
  | F64.finite q => F64.finite (if 0 ≤ q then ⌊q + 1 / 2⌋ else -⌊-q + 1 / 2⌋)
  | x => x

/-- What `chooseSpeedProducer` uses of declarations made outside `speed.go`:
the `Format` methods of the types `SizeB1024` and `SizeB1000` (both `int64`),
the printer's own formatting of a `float64` operand, and the result of
converting a `float64` that is not an `int64` to `int64`, which the language
leaves to the implementation. -/
structure Units where
  SizeB1024 : Int → Formatter
  SizeB1000 : Int → Formatter
  float64 : F64 → Formatter
  outOfRange : F64 → Int

/-- The conversion `int64(f)` (as in `SizeB1024(f)`). -/
def Units.toInt64 (E : Units) (f : F64) : Int :=
  match f with
  | F64.finite q =>
    let t : Int := if 0 ≤ q then ⌊q⌋ else -⌊-q⌋
    if -2 ^ 63 ≤ t ∧ t < 2 ^ 63 then t else E.outOfRange f
  | _ => E.outOfRange f

/-- The dynamic type of the argument `unit interface{}`. -/
inductive UnitType where
  | SizeB1024
  | SizeB1000
  | other
deriving DecidableEq

/-- `func chooseSpeedProducer(unit interface{}, format string) func(float64) string`. -/
def chooseSpeedProducer (E : Units) (unit : UnitType) (format : Str) : F64 → Option Str :=
  match unit with
  | UnitType.SizeB1024 => fun speed =>
    Sprintf format
      { typeName := "decor.speedFormatter".toList
        Format := (FmtAsSpeed (E.SizeB1024 (E.toInt64 (F64.Round speed)))).Format }
  | UnitType.SizeB1000 => fun speed =>
    Sprintf format
      { typeName := "decor.speedFormatter".toList
        Format := (FmtAsSpeed (E.SizeB1000 (E.toInt64 (F64.Round speed)))).Format }
  | UnitType.other => fun speed =>
    Sprintf format { typeName := "float64".toList, Format := (E.float64 speed).Format }

/-- Decimal digits of a natural number. -/
def natDigits (n : Nat) : Str :=
  (Nat.toDigits 10 n)

/-- Decimal digits of an integer, with its sign. -/
def intDigits (v : Int) : Str :=
  if v < 0 then '-' :: natDigits v.natAbs else natDigits v.toNat

/-- A stand-in for the `Format` method of a size type with units of `base`
bytes named `names`: the whole number of the largest unit that fits, a space
under the space flag, and the unit's name, whatever the verb. -/
def demoSize (base : Int) (names : Str × Str × Str) (v : Int) : Formatter :=
  { Format := fun st _ =>
      let (q, name) :=
        if v < base then (v, names.1)
        else if v < base * base then (v / base, names.2.1)
        else (v / (base * base), names.2.2)
      Except.ok { st with buf := st.buf ++ intDigits q ++
        (if st.fl.space then [' '] else []) ++ name } }

/-- Stand-ins for the declarations outside `speed.go`. -/
def demoUnits : Units :=
  { SizeB1024 := demoSize 1024 (['b'], ['K', 'i', 'B'], ['M', 'i', 'B'])
    SizeB1000 := demoSize 1000 (['b'], ['K', 'B'], ['M', 'B'])
    float64 := fun _ => { Format := fun st _ => Except.ok { st with buf := st.buf ++ ['f'] } }
    outOfRange := fun _ => 0 }

/-- The stand-ins with the conversion of amd64, where `int64(f)` of a `float64`
outside the range of `int64` is the least `int64`. -/
def amd64Units : Units :=
  { demoUnits with outOfRange := fun _ => -9223372036854775808 }

/-- The producer field of a decorator built with `unit` and `format`: the text
of `chooseSpeedProducer(unit, format)` (empty where `Sprintf` above gives no text). -/
def producerOf (E : Units) (unit : UnitType) (format : Str) : F64 → Str :=
  fun speed => (chooseSpeedProducer E unit format speed).getD []

/-- A moving-average decorator with unit `SizeB1024(0)` and format `%d`, after
`EwmaUpdate(1099511627776, 1)`: one nanosecond for 2^40 bytes. -/
def fastMoving : movingAverageSpeed (List F64) :=
  (MovingAverageSpeed (producerOf amd64Units UnitType.SizeB1024 ['%', 'd'])
    sampleLog [] demoWC).EwmaUpdate Rounding.exact 1099511627776 1

/-- The rate of the claim for the accumulator value `v`, in rational
arithmetic: for `v > 0` the quotient `1 / v` rounded to `float64`, times `1e9`,
rounded again, with `+Inf` where a rounded value exceeds `math.MaxFloat64`;
zero for every other `v`. -/
def perSecond (R : Rounding) (v : F64) : F64 :=
  match v with
  | F64.finite q =>
    if q > 0 then
      if R.rnd (1 / q) > maxFloat64 then F64.inf false
      else if R.rnd (R.rnd (1 / q) * 1000000000) > maxFloat64 then F64.inf false
      else F64.finite (R.rnd (R.rnd (1 / q) * 1000000000))
    else F64.finite 0
  | _ => F64.finite 0

/-- The scanner's position after the bytes `cs`. -/
def scan (a : Operand) : Mode → Printer → Str → Option (Mode × Printer)
  | m, p, [] => some (m, p)
  | m, p, c :: cs =>
    match p.step a m c with
    | none => none
    | some (m1, p1) => scan a m1 p1 cs

/-- The byte is an ASCII letter. -/
def isLetter (c : Char) : Bool :=
  decide ((65 ≤ c.toNat ∧ c.toNat ≤ 90) ∨ (97 ≤ c.toNat ∧ c.toNat ≤ 122))

/-- The format string is text without `%` followed by one directive and nothing
else: `%`, flags, an optional width, an optional `.` with an optional precision
(numbers of at most six digits), and a letter verb other than `T`, `p`, `w`. -/
def EndsInVerb (format : Str) : Prop :=
  ∃ (pre fs ws ds : Str) (v : Char),
    format = pre ++ '%' :: (fs ++ ws ++ ds ++ [v]) ∧
    (∀ c ∈ pre, c ≠ '%') ∧
    (∀ c ∈ fs, c ∈ ['#', '0', '+', '-', ' ']) ∧
    (∀ c ∈ ws, isDigit c = true) ∧ ws.head? ≠ some '0' ∧ ws.length ≤ 6 ∧
    (ds = [] ∨ ∃ ps : Str, ds = '.' :: ps ∧ (∀ c ∈ ps, isDigit c = true) ∧ ps.length ≤ 6) ∧
    isLetter v = true ∧ v ≠ 'T' ∧ v ≠ 'p' ∧ v ≠ 'w'

/-- The `Format` methods of the size types return normally. -/
def Units.Returns (E : Units) : Prop :=
  ∀ (n : Int) (st : State) (c : Char),
    (∃ st1, (E.SizeB1024 n).Format st c = Except.ok st1) ∧
    (∃ st1, (E.SizeB1000 n).Format st c = Except.ok st1)

/-- The printer `q` has the buffer and the operand count of `p`. -/
def Printer.Keeps (p q : Printer) : Prop :=
  q.buf = p.buf ∧ q.argNum = p.argNum

/-- The scanner is inside a directive, before its verb. -/
def Mode.inDirective : Mode → Bool
  | Mode.text => false
  | _ => true

/-! ## Theorems: proxyreader.go -/

/-- One `Read` through a proxy built by `newProxyReader`: the stream's own
result is returned, the stream and clock advance as the stream says, and the bar
receives `IncrBy n`, followed by one duration sample when timing is on and `n > 0`. -/
theorem newProxyReader_Read {σ ω : Type} (r : Reader σ ω) (hasEwma : Bool) (p : Nat)
    (w : World σ) :
    (newProxyReader r hasEwma).Read p w =
      ((( r.Read w.stream p).n, (r.Read w.stream p).err),
        { stream := (r.Read w.stream p).next
          clock := w.clock + (r.Read w.stream p).took
          bar := w.bar ++ BarCall.IncrBy (r.Read w.stream p).n ::
            (if hasEwma = true ∧ (r.Read w.stream p).n > 0
              then [BarCall.DecoratorEwmaUpdate (r.Read w.stream p).took] else []) }) := by
  have hrc : (toReadCloser r).Read = r.Read := by
    unfold toReadCloser NopCloser
    cases r.Close <;> cases r.WriteTo <;> rfl
  cases hasEwma <;> cases hw : r.WriteTo <;>
    simp [newProxyReader, hw, Proxy.Read, ewmaProxyReader.Read, proxyReader.Read, hrc,
      World.after, World.IncrBy, World.DecoratorEwmaUpdate, World.Since] <;>
    split <;> simp_all

theorem toReadCloser_WriteTo {σ ω : Type} (r : Reader σ ω) :
    (toReadCloser r).WriteTo = r.WriteTo := by
  unfold toReadCloser NopCloser
  cases r.Close <;> cases r.WriteTo <;> rfl

/-- One `WriteTo` through a proxy built by `newProxyReader` around a stream
with a `WriteTo`: the stream's own result is returned; with timing off the bar
receives `IncrInt64 n`, with timing on it receives a duration sample when
`n > 0` and nothing else. -/
theorem newProxyReader_WriteTo {σ ω : Type} (r : Reader σ ω) (hasEwma : Bool)
    (wt : σ → ω → IOResult σ) (hwt : r.WriteTo = some wt) (sink : ω) (w : World σ) :
    ((newProxyReader r hasEwma).WriterTo.bind (fun m => m sink w)) =
      some (((wt w.stream sink).n, (wt w.stream sink).err),
        { stream := (wt w.stream sink).next
          clock := w.clock + (wt w.stream sink).took
          bar := w.bar ++
            (if hasEwma = true then
              (if (wt w.stream sink).n > 0
                then [BarCall.DecoratorEwmaUpdate (wt w.stream sink).took] else [])
             else [BarCall.IncrInt64 (wt w.stream sink).n]) }) := by
  cases hasEwma
  · simp [newProxyReader, hwt, Proxy.WriterTo, proxyWriterTo.WriteTo,
      toReadCloser_WriteTo, World.after, World.IncrInt64]
  · simp only [newProxyReader, hwt, Proxy.WriterTo, ewmaProxyWriterTo.WriteTo,
      toReadCloser_WriteTo, World.after, World.DecoratorEwmaUpdate, World.Since,
      Option.isSome_some, if_true, Option.some_bind]
    split <;> simp_all

theorem readAll_spec {σ ω : Type} (r : Reader σ ω) (hasEwma : Bool) (ps : List Nat) :
    ∀ w : World σ,
      (readAll (newProxyReader r hasEwma) ps w).1 = rawReads r ps w.stream ∧
      increments (readAll (newProxyReader r hasEwma) ps w).2.bar =
        increments w.bar ++ (rawReads r ps w.stream).map Prod.fst := by
  induction ps with
  | nil => intro w; simp [readAll, rawReads]
  | cons p ps ih =>
    intro w
    have h := ih ((newProxyReader r hasEwma).Read p w).2
    rw [newProxyReader_Read] at h
    simp only [readAll, rawReads, newProxyReader_Read]
    refine ⟨?_, ?_⟩
    · simp [h.1]
    · rw [h.2]
      by_cases hc : hasEwma = true ∧ (r.Read w.stream p).n > 0 <;>
        simp [hc, increments, BarCall.amount, List.filterMap_append, List.filterMap_cons]

/-- C2: reading a stream through the proxy's `Read`, with any buffer sizes and
with timing on or off, returns the stream's own results and asks the bar for
exactly one increment per call, equal to the `n` of that call; so when the
stream delivers `L` bytes in all, the increments sum to `L`. -/
theorem C2_read_round_trip {σ ω : Type} (r : Reader σ ω) (hasEwma : Bool) (ps : List Nat)
    (w : World σ) (L : Int) (hL : ((rawReads r ps w.stream).map Prod.fst).sum = L) :
    (readAll (newProxyReader r hasEwma) ps w).1 = rawReads r ps w.stream ∧
    increments (readAll (newProxyReader r hasEwma) ps w).2.bar =
      increments w.bar ++ (rawReads r ps w.stream).map Prod.fst ∧
    (increments (readAll (newProxyReader r hasEwma) ps w).2.bar).sum =
      (increments w.bar).sum + L := by
  obtain ⟨h1, h2⟩ := readAll_spec r hasEwma ps w
  refine ⟨h1, h2, ?_⟩
  rw [h2, List.sum_append, hL]

/-- C2 at a 10-byte stream read with 4-byte buffers and timing on. -/
theorem C2_read_round_trip_witness :
    ((rawReads bytesReader [4, 4, 4, 4] (World.init 10).stream).map Prod.fst).sum = 10 ∧
    (increments (readAll (newProxyReader bytesReader true) [4, 4, 4, 4]
      (World.init 10)).2.bar).sum = (increments (World.init 10).bar).sum + 10 :=
  ⟨by decide, (C2_read_round_trip bytesReader true [4, 4, 4, 4] (World.init 10) 10
    (by decide)).2.2⟩

/-- C8: `Close` on a proxy built by `newProxyReader` is the wrapped stream's
`Close` when it has one (same effect on the stream, same error) and does
nothing and returns no error when it has none; the bar and the clock are
untouched either way. -/
theorem C8_close_delegates {σ ω : Type} (r : Reader σ ω) (hasEwma : Bool) (w : World σ) :
    (newProxyReader r hasEwma).Close w =
      (match r.Close with
        | some c => ((c w.stream).1, { w with stream := (c w.stream).2 })
        | none => (none, w)) ∧
    ((newProxyReader r hasEwma).Close w).2.bar = w.bar ∧
    ((newProxyReader r hasEwma).Close w).2.clock = w.clock := by
  have hrc : (newProxyReader r hasEwma).ReadCloser = toReadCloser r := by
    cases hasEwma <;> cases hw : r.WriteTo <;> simp [newProxyReader, hw, Proxy.ReadCloser]
  refine ⟨?_, ?_, ?_⟩
  · simp only [Proxy.Close, hrc]
    unfold toReadCloser NopCloser
    cases r.Close <;> cases r.WriteTo <;> rfl
  · simp [Proxy.Close]
  · simp [Proxy.Close]

/-- C10: the value returned by `newProxyReader` has a `WriteTo` exactly when
`r` has one, the `ReadCloser` made by `toReadCloser` is a `WriterTo` exactly
when `r` is, and a `WriteTo` of the returned value never panics. -/
theorem C10_writeTo_offered_iff_safe {σ ω : Type} (r : Reader σ ω) (hasEwma : Bool) :
    (newProxyReader r hasEwma).WriterTo.isSome = r.WriteTo.isSome ∧
    (toReadCloser r).WriteTo.isSome = r.WriteTo.isSome ∧
    ∀ m ∈ (newProxyReader r hasEwma).WriterTo, ∀ (sink : ω) (w : World σ),
      (m sink w).isSome = true := by
  refine ⟨?_, by rw [toReadCloser_WriteTo], ?_⟩
  · cases hasEwma <;> cases hw : r.WriteTo <;> simp [newProxyReader, hw, Proxy.WriterTo]
  · intro m hm sink w
    cases hasEwma <;> cases hw : r.WriteTo <;>
      simp [newProxyReader, hw, Proxy.WriterTo] at hm <;>
      subst hm <;>
      simp [proxyWriterTo.WriteTo, ewmaProxyWriterTo.WriteTo, toReadCloser_WriteTo, hw]

/-- C1: with timing on, a `WriteTo` that transfers 5 bytes returns `(5, nil)`
and gives the bar one duration sample and no increment, where a `Read` of the
same 5 bytes gives it `IncrBy 5` and the sample, and `WriteTo` with timing off
gives it `IncrInt64 5`. -/
theorem C1_ewma_WriteTo_omits_increment :
    (((newProxyReader bytesReader true).WriterTo.bind
        (fun m => m () (World.init 5))).map (fun out => (out.1, out.2.bar))
      = some ((5, none), [BarCall.DecoratorEwmaUpdate 7])) ∧
    (((newProxyReader bytesReader true).Read 5 (World.init 5)).1,
      ((newProxyReader bytesReader true).Read 5 (World.init 5)).2.bar)
      = ((5, none), [BarCall.IncrBy 5, BarCall.DecoratorEwmaUpdate 7]) ∧
    (((newProxyReader bytesReader false).WriterTo.bind
        (fun m => m () (World.init 5))).map (fun out => (out.1, out.2.bar))
      = some ((5, none), [BarCall.IncrInt64 5])) := by
  refine ⟨?_, ?_, ?_⟩ <;> decide

/-- C3: with timing on, a `WriteTo` that fails after 3 bytes returns the
stream's `(3, err)` unchanged and records the elapsed time, but the bar is not
incremented by the 3 bytes; the failing `Read`, and `WriteTo` with timing off,
do increment it. -/
theorem C3_ewma_WriteTo_error_loses_partial_count :
    (((newProxyReader failingFile true).WriterTo.bind
        (fun m => m () (World.init 0))).map (fun out => (out.1, out.2.bar))
      = some ((3, some { msg := "disk" }), [BarCall.DecoratorEwmaUpdate 5])) ∧
    (((newProxyReader failingFile true).Read 8 (World.init 0)).1,
      ((newProxyReader failingFile true).Read 8 (World.init 0)).2.bar)
      = ((3, some { msg := "disk" }), [BarCall.IncrBy 3, BarCall.DecoratorEwmaUpdate 5]) ∧
    (((newProxyReader failingFile false).WriterTo.bind
        (fun m => m () (World.init 0))).map (fun out => (out.1, out.2.bar))
      = some ((3, some { msg := "disk" }), [BarCall.IncrInt64 3])) := by
  refine ⟨?_, ?_, ?_⟩ <;> decide

/-! ## Theorems: float64 -/

theorem Rounding.rnd_zero (R : Rounding) : R.rnd 0 = 0 := by
  have h := R.exact_int 0 (by norm_num)
  simpa using h

theorem Rounding.rnd_one (R : Rounding) : R.rnd 1 = 1 := by
  have h := R.exact_int 1 (by norm_num)
  simpa using h

theorem Rounding.rnd_nonneg (R : Rounding) {q : ℚ} (h : 0 ≤ q) : 0 ≤ R.rnd q := by
  have := R.mono 0 q h
  rwa [R.rnd_zero] at this

theorem Rounding.abs_le_two63 (R : Rounding) {q : ℚ} (h : |q| ≤ 2 ^ 63) :
    |R.rnd q| ≤ 2 ^ 63 := by
  rw [abs_le] at h ⊢
  constructor
  · have := R.mono _ _ h.1
    rwa [R.odd, R.exact_two63] at this
  · have := R.mono _ _ h.2
    rwa [R.exact_two63] at this

theorem two63_le_maxFloat64 : (2 : ℚ) ^ 63 ≤ maxFloat64 := by
  unfold maxFloat64
  norm_num

theorem F64.ofRat_finite (R : Rounding) {q : ℚ} (h : |q| ≤ 2 ^ 63) :
    F64.ofRat R q = F64.finite (R.rnd q) := by
  have h1 := R.abs_le_two63 h
  have h2 : ¬ |R.rnd q| > maxFloat64 := not_lt.mpr (le_trans h1 two63_le_maxFloat64)
  simp [F64.ofRat, h2]

theorem isInt64_abs {i : Int} (h : isInt64 i) : |(i : ℚ)| ≤ 2 ^ 63 := by
  obtain ⟨h1, h2⟩ := h
  rw [abs_le]
  constructor
  · exact_mod_cast h1
  · exact_mod_cast le_of_lt h2

theorem F64.ofInt_finite (R : Rounding) {i : Int} (h : isInt64 i) :
    F64.ofInt R i = F64.finite (R.rnd i) :=
  F64.ofRat_finite R (isInt64_abs h)

theorem Rounding.one_le_abs_int (R : Rounding) {i : Int} (h : i ≠ 0) :
    1 ≤ |R.rnd i| := by
  rcases lt_or_gt_of_ne h with hneg | hpos
  · have h1 : (i : ℚ) ≤ -1 := by exact_mod_cast Int.le_sub_one_of_lt hneg
    have h2 := R.mono _ _ h1
    rw [R.odd, R.rnd_one] at h2
    rw [abs_of_nonpos (by linarith)]
    linarith
  · have h1 : (1 : ℚ) ≤ i := by exact_mod_cast Int.add_one_le_of_lt hpos
    have h2 := R.mono _ _ h1
    rw [R.rnd_one] at h2
    rw [abs_of_nonneg (by linarith)]
    exact h2

theorem F64.div_ofInt (R : Rounding) {n dur : Int} (hn : isInt64 n) (hd : isInt64 dur) :
    F64.div R (F64.ofInt R dur) (F64.ofInt R n) =
      if n = 0 then (if dur = 0 then F64.nan else F64.inf (decide (dur < 0)))
      else F64.finite (R.rnd (R.rnd dur / R.rnd n)) := by
  rw [F64.ofInt_finite R hn, F64.ofInt_finite R hd]
  by_cases h0 : n = 0
  · subst h0
    by_cases hd0 : dur = 0
    · subst hd0
      simp [F64.div, R.rnd_zero]
    · have hne : R.rnd dur ≠ 0 := by
        intro h
        have := R.one_le_abs_int hd0
        rw [h] at this
        norm_num at this
      have hsign : (R.rnd dur < 0) ↔ dur < 0 := by
        constructor
        · intro h
          by_contra hc
          have : (0 : ℚ) ≤ dur := by exact_mod_cast not_lt.mp hc
          exact absurd (R.rnd_nonneg this) (not_le.mpr h)
        · intro h
          have h1 : (dur : ℚ) ≤ 0 := by exact_mod_cast le_of_lt h
          have h2 := R.mono _ _ h1
          rw [R.rnd_zero] at h2
          exact lt_of_le_of_ne h2 hne
      simp [F64.div, R.rnd_zero, hne, hd0, hsign]
  · have hn1 := R.one_le_abs_int h0
    have hne : R.rnd n ≠ 0 := by
      intro h
      rw [h] at hn1
      norm_num at hn1
    have hq : |R.rnd dur / R.rnd n| ≤ 2 ^ 63 := by
      rw [abs_div]
      have hpos : (0 : ℚ) < |R.rnd n| := lt_of_lt_of_le one_pos hn1
      rw [div_le_iff₀ hpos]
      calc |R.rnd dur| ≤ 2 ^ 63 := R.abs_le_two63 (isInt64_abs hd)
        _ = 2 ^ 63 * 1 := by ring
        _ ≤ 2 ^ 63 * |R.rnd n| := by
          apply mul_le_mul_of_nonneg_left hn1
          positivity
    simp [F64.div, hne, h0, F64.ofRat_finite R hq]

theorem F64_mul_comm (R : Rounding) (x y : F64) : F64.mul R x y = F64.mul R y x := by
  cases x <;> cases y <;> simp [F64.mul, mul_comm, Bool.xor_comm]

/-! ## Theorems: decor/speed.go, the decorators -/

/-- C4: `EwmaUpdate(n, dur)` with `n` and `dur` in the `int64` range. The
quotient `float64(dur) / float64(n)` is infinite or NaN exactly when `n = 0`;
in that case the decorator (its accumulator included) is returned unchanged,
and otherwise the accumulator gets exactly one `Add`, of the finite quotient. -/
theorem C4_EwmaUpdate_discards_non_finite {α : Type} (R : Rounding)
    (d : movingAverageSpeed α) (n dur : Int) (hn : isInt64 n) (hd : isInt64 dur) :
    ((F64.IsInf (F64.div R (F64.ofInt R dur) (F64.ofInt R n)) 0
        || F64.IsNaN (F64.div R (F64.ofInt R dur) (F64.ofInt R n))) = true ↔ n = 0) ∧
    d.EwmaUpdate R n dur =
      (if n = 0 then d
       else { d with
          acc := d.average.Add d.acc (F64.div R (F64.ofInt R dur) (F64.ofInt R n)) }) ∧
    F64.div R (F64.ofInt R dur) (F64.ofInt R n) =
      (if n = 0 then (if dur = 0 then F64.nan else F64.inf (decide (dur < 0)))
       else F64.finite (R.rnd (R.rnd dur / R.rnd n))) := by
  have hdiv := F64.div_ofInt R hn hd
  have hiff : (F64.IsInf (F64.div R (F64.ofInt R dur) (F64.ofInt R n)) 0
        || F64.IsNaN (F64.div R (F64.ofInt R dur) (F64.ofInt R n))) = true ↔ n = 0 := by
    rw [hdiv]
    by_cases h0 : n = 0
    · by_cases hd0 : dur = 0
      · simp [h0, hd0, F64.IsInf, F64.IsNaN]
      · by_cases hs : dur < 0 <;> simp [h0, hd0, hs, F64.IsInf, F64.IsNaN]
    · simp [h0, F64.IsInf, F64.IsNaN]
  refine ⟨hiff, ?_, hdiv⟩
  unfold movingAverageSpeed.EwmaUpdate
  by_cases h0 : n = 0
  · rw [if_pos (hiff.mpr h0), if_pos h0]
  · rw [if_neg (fun h => h0 (hiff.mp h)), if_neg h0]

/-- C4 at `EwmaUpdate(4, 100)` in exact arithmetic. -/
theorem C4_EwmaUpdate_discards_non_finite_witness :
    isInt64 4 ∧ isInt64 100 ∧
    (((F64.IsInf (F64.div Rounding.exact (F64.ofInt Rounding.exact 100)
          (F64.ofInt Rounding.exact 4)) 0
        || F64.IsNaN (F64.div Rounding.exact (F64.ofInt Rounding.exact 100)
          (F64.ofInt Rounding.exact 4))) = true ↔ (4 : Int) = 0) ∧
    demoMoving.EwmaUpdate Rounding.exact 4 100 =
      (if (4 : Int) = 0 then demoMoving
       else { demoMoving with
          acc := demoMoving.average.Add demoMoving.acc
            (F64.div Rounding.exact (F64.ofInt Rounding.exact 100)
              (F64.ofInt Rounding.exact 4)) }) ∧
    F64.div Rounding.exact (F64.ofInt Rounding.exact 100) (F64.ofInt Rounding.exact 4) =
      (if (4 : Int) = 0 then (if (100 : Int) = 0 then F64.nan
          else F64.inf (decide ((100 : Int) < 0)))
       else F64.finite (Rounding.exact.rnd
          (Rounding.exact.rnd (100 : Int) / Rounding.exact.rnd (4 : Int))))) :=
  ⟨by decide, by decide,
    C4_EwmaUpdate_discards_non_finite Rounding.exact demoMoving 4 100 (by decide) (by decide)⟩

theorem F64.ofRat_zero (R : Rounding) : F64.ofRat R 0 = F64.finite 0 := by
  rw [F64.ofRat_finite R (by norm_num), R.rnd_zero]

theorem F64.mul_zero_billion (R : Rounding) :
    F64.mul R (F64.finite 0) (F64.finite 1000000000) = F64.finite 0 := by
  simp [F64.mul, F64.ofRat_zero]

theorem F64.le_zero_ofRat (R : Rounding) {q : ℚ} (h : 0 ≤ q) :
    F64.le (F64.finite 0) (F64.ofRat R q) = true := by
  have h1 := R.rnd_nonneg h
  unfold F64.ofRat
  by_cases hc : |R.rnd q| > maxFloat64
  · simp [hc, F64.le, not_lt.mpr h1]
  · simp [hc, F64.le, h1]

theorem F64.le_zero_zero : F64.le (F64.finite 0) (F64.finite 0) = true := by
  simp [F64.le]

/-- The rate `movingAverageSpeed.Decor` hands to the producer for the
accumulator value `v`. -/
theorem moving_Decor_live {α : Type} (R : Rounding) (d : movingAverageSpeed α)
    (s : Statistics) (hs : s.Completed = false) :
    d.Decor R s =
      (d.WC.FormatMsg (d.producer (F64.mul R
          (if F64.gt (d.average.Value d.acc) (F64.finite 0)
            then F64.div R (F64.finite 1) (d.average.Value d.acc) else F64.finite 0)
          (F64.finite 1000000000))),
       { d with msg := d.producer (F64.mul R
          (if F64.gt (d.average.Value d.acc) (F64.finite 0)
            then F64.div R (F64.finite 1) (d.average.Value d.acc) else F64.finite 0)
          (F64.finite 1000000000)) }) := by
  simp [movingAverageSpeed.Decor, hs]

theorem F64.ofRat_nonneg (R : Rounding) {q : ℚ} (h : 0 ≤ q) :
    F64.ofRat R q =
      if R.rnd q > maxFloat64 then F64.inf false else F64.finite (R.rnd q) := by
  have hr := R.rnd_nonneg h
  have hneg : decide (R.rnd q < 0) = false := by simpa using hr
  simp only [F64.ofRat, abs_of_nonneg hr, hneg]

/-- The rate computed by `Decor` is the rate of the claim. -/
theorem moving_rate_perSecond (R : Rounding) (v : F64) :
    F64.mul R (if F64.gt v (F64.finite 0) then F64.div R (F64.finite 1) v else F64.finite 0)
      (F64.finite 1000000000) = perSecond R v := by
  cases v with
  | nan => simp [F64.gt, F64.mul_zero_billion, perSecond]
  | inf neg =>
    cases neg <;> simp [F64.gt, F64.div, F64.mul_zero_billion, perSecond]
  | finite q =>
    by_cases hq : q > 0
    · have h1 : F64.gt (F64.finite q) (F64.finite 0) = true := by simp [F64.gt, hq]
      have hne : q ≠ 0 := ne_of_gt hq
      have hinv : (0 : ℚ) ≤ 1 / q := le_of_lt (one_div_pos.mpr hq)
      have hr := R.rnd_nonneg hinv
      rw [if_pos h1]
      simp only [F64.div, hne, if_false, perSecond, hq, if_true]
      rw [F64.ofRat_nonneg R hinv]
      by_cases hc : R.rnd (1 / q) > maxFloat64
      · simp only [hc, if_true, F64.mul]
        norm_num
      · simp only [hc, if_false, F64.mul]
        exact F64.ofRat_nonneg R (mul_nonneg hr (by norm_num))
    · have h1 : ¬ (F64.gt (F64.finite q) (F64.finite 0) = true) := by simp [F64.gt, hq]
      rw [if_neg h1, F64.mul_zero_billion]
      simp [perSecond, hq]

theorem perSecond_nonneg (R : Rounding) (v : F64) :
    F64.le (F64.finite 0) (perSecond R v) = true := by
  cases v with
  | nan => simp [perSecond, F64.le]
  | inf neg => simp [perSecond, F64.le]
  | finite q =>
    by_cases hq : q > 0
    · have hinv : (0 : ℚ) ≤ 1 / q := le_of_lt (one_div_pos.mpr hq)
      have hr := R.rnd_nonneg hinv
      have hr2 := R.rnd_nonneg (mul_nonneg hr (by norm_num : (0 : ℚ) ≤ 1000000000))
      simp only [perSecond, hq, if_true]
      split
      · simp [F64.le]
      · split
        · simp [F64.le]
        · simp only [F64.le, decide_eq_true_eq]
          exact hr2
    · simp [perSecond, hq, F64.le]

/-- C6, as amended: a `Decor` call with `Completed = false` reads the
accumulator's value `v` and stores and renders the producer's text for the
rate `perSecond v`: `1e9 * (1 / v)` in `float64` when `v > 0` (the exact
`1e9 / v` when nothing is lost to rounding) and `0` when `v <= 0`. The divisor
is never zero, and the rate handed to the producer is never negative nor NaN. -/
theorem C6_moving_average_rate {α : Type} (R : Rounding) (d : movingAverageSpeed α)
    (s : Statistics) (hs : s.Completed = false) :
    (d.Decor R s).2.msg = d.producer (perSecond R (d.average.Value d.acc)) ∧
    (d.Decor R s).1 = d.WC.FormatMsg (d.producer (perSecond R (d.average.Value d.acc))) ∧
    (F64.gt (d.average.Value d.acc) (F64.finite 0) = true →
      d.average.Value d.acc ≠ F64.finite 0 ∧
      perSecond R (d.average.Value d.acc) =
        F64.mul R (F64.finite 1000000000)
          (F64.div R (F64.finite 1) (d.average.Value d.acc))) ∧
    (F64.le (d.average.Value d.acc) (F64.finite 0) = true →
      perSecond R (d.average.Value d.acc) = F64.finite 0) ∧
    (∀ q : ℚ, d.average.Value d.acc = F64.finite q → 0 < q →
      R.rnd (1 / q) = 1 / q → R.rnd (1000000000 / q) = 1000000000 / q →
      1000000000 / q ≤ maxFloat64 →
      perSecond R (d.average.Value d.acc) = F64.finite (1000000000 / q)) ∧
    F64.le (F64.finite 0) (perSecond R (d.average.Value d.acc)) = true := by
  rw [moving_Decor_live R d s hs, moving_rate_perSecond]
  refine ⟨rfl, rfl, ?_, ?_, ?_, perSecond_nonneg R _⟩
  · intro hv
    refine ⟨?_, ?_⟩
    · intro h0
      rw [h0] at hv
      simp [F64.gt] at hv
    · rw [← moving_rate_perSecond, if_pos hv, F64_mul_comm]
  · intro hv
    cases hval : d.average.Value d.acc with
    | nan => simp [perSecond]
    | inf neg => simp [perSecond]
    | finite q =>
      rw [hval] at hv
      have hq : ¬ q > 0 := by
        simp only [F64.le, decide_eq_true_eq] at hv
        exact not_lt.mpr hv
      simp [perSecond, hq]
  · intro q hval hq h1 h2 hmax
    have hone : (1 : ℚ) / q ≤ maxFloat64 := by
      refine le_trans ?_ hmax
      exact div_le_div_of_nonneg_right (by norm_num) (le_of_lt hq)
    have hmul : 1 / q * 1000000000 = 1000000000 / q := by ring
    rw [hval]
    simp only [perSecond, hq, if_true, h1, hmul, h2, not_lt.mpr hone, not_lt.mpr hmax,
      if_false]

/-- C6 at a decorator whose accumulator holds one sample of 25 ns per byte. -/
theorem C6_moving_average_rate_witness :
    demoLive.Completed = false ∧
    (demoMovingFed.Decor Rounding.exact demoLive).2.msg =
      demoMovingFed.producer
        (perSecond Rounding.exact (demoMovingFed.average.Value demoMovingFed.acc)) ∧
    (demoMovingFed.Decor Rounding.exact demoLive).1 =
      demoMovingFed.WC.FormatMsg (demoMovingFed.producer
        (perSecond Rounding.exact (demoMovingFed.average.Value demoMovingFed.acc))) ∧
    (F64.gt (demoMovingFed.average.Value demoMovingFed.acc) (F64.finite 0) = true →
      demoMovingFed.average.Value demoMovingFed.acc ≠ F64.finite 0 ∧
      perSecond Rounding.exact (demoMovingFed.average.Value demoMovingFed.acc) =
        F64.mul Rounding.exact (F64.finite 1000000000)
          (F64.div Rounding.exact (F64.finite 1)
            (demoMovingFed.average.Value demoMovingFed.acc))) ∧
    (F64.le (demoMovingFed.average.Value demoMovingFed.acc) (F64.finite 0) = true →
      perSecond Rounding.exact (demoMovingFed.average.Value demoMovingFed.acc) =
        F64.finite 0) ∧
    (∀ q : ℚ, demoMovingFed.average.Value demoMovingFed.acc = F64.finite q → 0 < q →
      Rounding.exact.rnd (1 / q) = 1 / q →
      Rounding.exact.rnd (1000000000 / q) = 1000000000 / q →
      1000000000 / q ≤ maxFloat64 →
      perSecond Rounding.exact (demoMovingFed.average.Value demoMovingFed.acc) =
        F64.finite (1000000000 / q)) ∧
    F64.le (F64.finite 0)
      (perSecond Rounding.exact (demoMovingFed.average.Value demoMovingFed.acc)) = true :=
  ⟨rfl, C6_moving_average_rate Rounding.exact demoMovingFed demoLive rfl⟩

theorem EwmaUpdate_fields {α : Type} (R : Rounding) (d : movingAverageSpeed α)
    (n dur : Int) :
    (d.EwmaUpdate R n dur).WC = d.WC ∧ (d.EwmaUpdate R n dur).producer = d.producer ∧
    (d.EwmaUpdate R n dur).average = d.average ∧ (d.EwmaUpdate R n dur).msg = d.msg := by
  simp only [movingAverageSpeed.EwmaUpdate]
  split <;> simp

theorem demoMovingFed_acc : demoMovingFed.acc = [F64.finite 25] := by
  have hd := F64.div_ofInt Rounding.exact (by decide : isInt64 4) (by decide : isInt64 100)
  simp only [demoMovingFed, demoMoving, movingAverageSpeed.EwmaUpdate, hd]
  norm_num [F64.IsInf, F64.IsNaN, Rounding.exact, MovingAverageSpeed, sampleLog]

/-- In exact arithmetic a value of 25 ns per byte gives 40000000 bytes per second. -/
theorem perSecond_demo :
    perSecond Rounding.exact (demoMovingFed.average.Value demoMovingFed.acc) =
      F64.finite 40000000 := by
  have hv : demoMovingFed.average.Value demoMovingFed.acc = F64.finite 25 := by
    rw [demoMovingFed_acc, demoMovingFed, (EwmaUpdate_fields _ _ _ _).2.2.1]
    rfl
  rw [hv]
  norm_num [perSecond, Rounding.exact, maxFloat64]

theorem fastMoving_acc : fastMoving.acc = [F64.finite (1 / 1099511627776)] := by
  have hd := F64.div_ofInt Rounding.exact (by decide : isInt64 1099511627776)
    (by decide : isInt64 1)
  simp only [fastMoving, movingAverageSpeed.EwmaUpdate, hd]
  norm_num [F64.IsInf, F64.IsNaN, Rounding.exact, MovingAverageSpeed, sampleLog]

theorem fastMoving_Value :
    fastMoving.average.Value fastMoving.acc = F64.finite (1 / 1099511627776) := by
  rw [fastMoving_acc, fastMoving, (EwmaUpdate_fields _ _ _ _).2.2.1]
  rfl

theorem perSecond_fast :
    perSecond Rounding.exact (F64.finite (1 / 1099511627776)) =
      F64.finite 1099511627776000000000 := by
  norm_num [perSecond, Rounding.exact, maxFloat64]

theorem amd64_toInt64_fast :
    amd64Units.toInt64 (F64.Round (F64.finite 1099511627776000000000)) =
      -9223372036854775808 := by
  simp [Units.toInt64, F64.Round, amd64Units]
  norm_num

theorem producer_fast :
    chooseSpeedProducer amd64Units UnitType.SizeB1024 ['%', 'd']
      (F64.finite 1099511627776000000000) = some "-9223372036854775808b/s".toList := by
  unfold chooseSpeedProducer
  simp only [amd64_toInt64_fast]
  decide

/-- C6 as stated fails where it says that no negative rate is rendered. A
decorator with unit `SizeB1024(0)` and format `%d` whose accumulator holds
`v = 2^-40` ns per byte (one `EwmaUpdate(1099511627776, 1)`) has `v > 0` and
the rate `2^40 * 1e9`, which is above the range of `int64`; with the
conversion of amd64 the producer's text is `-9223372036854775808b/s`, and that
is what `Decor` renders. -/
theorem C6_negative_text :
    demoLive.Completed = false ∧
    fastMoving.average.Value fastMoving.acc = F64.finite (1 / 1099511627776) ∧
    F64.gt (fastMoving.average.Value fastMoving.acc) (F64.finite 0) = true ∧
    perSecond Rounding.exact (fastMoving.average.Value fastMoving.acc) =
      F64.finite 1099511627776000000000 ∧
    chooseSpeedProducer amd64Units UnitType.SizeB1024 ['%', 'd']
      (F64.finite 1099511627776000000000) = some "-9223372036854775808b/s".toList ∧
    (fastMoving.Decor Rounding.exact demoLive).1 = "[-9223372036854775808b/s]".toList := by
  have hprod : fastMoving.producer =
      producerOf amd64Units UnitType.SizeB1024 ['%', 'd'] := by
    rw [fastMoving, (EwmaUpdate_fields _ _ _ _).2.1]
    rfl
  have hwc : fastMoving.WC = demoWC := by
    rw [fastMoving, (EwmaUpdate_fields _ _ _ _).1]
    rfl
  have hmsg : fastMoving.producer (F64.finite 1099511627776000000000) =
      "-9223372036854775808b/s".toList := by
    rw [hprod, producerOf, producer_fast]
    rfl
  refine ⟨rfl, fastMoving_Value, ?_, ?_, producer_fast, ?_⟩
  · rw [fastMoving_Value]
    norm_num [F64.gt]
  · rw [fastMoving_Value, perSecond_fast]
  · rw [moving_Decor_live Rounding.exact fastMoving demoLive rfl, moving_rate_perSecond,
      fastMoving_Value, perSecond_fast, hmsg, hwc]
    decide

theorem moving_Decor_completed {α : Type} (R : Rounding)
    (d : movingAverageSpeed α) (s : Statistics) (hs : s.Completed = true) :
    d.Decor R s = (d.WC.FormatMsg d.msg, d) := by
  simp [movingAverageSpeed.Decor, hs]

theorem average_Decor_completed (R : Rounding) (d : averageSpeed) (s : Statistics)
    (now : Int) (hs : s.Completed = true) :
    d.Decor R s now = (d.WC.FormatMsg d.msg, d) := by
  simp [averageSpeed.Decor, hs]

theorem moving_call_quiet {α : Type} (R : Rounding) (d : movingAverageSpeed α)
    (c : MovingCall) (hc : c.live = false) :
    (d.call R c).msg = d.msg ∧ (d.call R c).WC = d.WC ∧ (d.call R c).producer = d.producer := by
  cases c with
  | Decor s =>
    have hs : s.Completed = true := by simpa [MovingCall.live] using hc
    simp [movingAverageSpeed.call, moving_Decor_completed R d s hs]
  | EwmaUpdate n dur =>
    simp only [movingAverageSpeed.call, movingAverageSpeed.EwmaUpdate]
    split <;> simp

theorem moving_calls_quiet {α : Type} (R : Rounding) (cs : List MovingCall) :
    ∀ d : movingAverageSpeed α, (∀ c ∈ cs, c.live = false) →
      (d.calls R cs).msg = d.msg ∧ (d.calls R cs).WC = d.WC ∧
      (d.calls R cs).producer = d.producer := by
  induction cs with
  | nil => intro d _; simp [movingAverageSpeed.calls]
  | cons c cs ih =>
    intro d h
    have hc := moving_call_quiet R d c (h c (List.mem_cons_self c cs))
    have hrest := ih (d.call R c) (fun c' hc' => h c' (List.mem_cons_of_mem c hc'))
    simp only [movingAverageSpeed.calls, List.foldl_cons] at hrest ⊢
    exact ⟨hrest.1.trans hc.1, hrest.2.1.trans hc.2.1, hrest.2.2.trans hc.2.2⟩

theorem average_call_quiet (R : Rounding) (d : averageSpeed)
    (c : AverageCall) (hc : c.live = false) :
    (d.call R c).msg = d.msg ∧ (d.call R c).WC = d.WC ∧ (d.call R c).producer = d.producer := by
  cases c with
  | Decor s now =>
    have hs : s.Completed = true := by simpa [AverageCall.live] using hc
    simp [averageSpeed.call, average_Decor_completed R d s now hs]
  | AverageAdjust t =>
    simp [averageSpeed.call, averageSpeed.AverageAdjust]

theorem average_calls_quiet (R : Rounding) (cs : List AverageCall) :
    ∀ d : averageSpeed, (∀ c ∈ cs, c.live = false) →
      (d.calls R cs).msg = d.msg ∧ (d.calls R cs).WC = d.WC ∧
      (d.calls R cs).producer = d.producer := by
  induction cs with
  | nil => intro d _; simp [averageSpeed.calls]
  | cons c cs ih =>
    intro d h
    have hc := average_call_quiet R d c (h c (List.mem_cons_self c cs))
    have hrest := ih (d.call R c) (fun c' hc' => h c' (List.mem_cons_of_mem c hc'))
    simp only [averageSpeed.calls, List.foldl_cons] at hrest ⊢
    exact ⟨hrest.1.trans hc.1, hrest.2.1.trans hc.2.1, hrest.2.2.trans hc.2.2⟩

/-- C5: freeze on completion, for both decorators. Let `m` (resp. `a`) be the
decorator as the most recent `Decor` call with `Completed = false` left it, or
as it was built when there was none, and let `cs` (resp. `as`) be the calls
made since, none of them such a call (completed renders, `EwmaUpdate`,
`AverageAdjust`). Then a `Decor` call with `Completed = true`, at any time
`now`, returns `FormatMsg` of the message stored in `m` (resp. `a`) and leaves
the decorator as it was; so it returns the text that the last recomputing
call returned (at whatever time `t0` that was), and `FormatMsg` of the empty
message for a freshly built decorator. -/
theorem C5_freeze_on_completion {α : Type} (R : Rounding) (s : Statistics)
    (hs : s.Completed = true)
    (m : movingAverageSpeed α) (cs : List MovingCall) (hcs : ∀ c ∈ cs, c.live = false)
    (a : averageSpeed) (as : List AverageCall) (has : ∀ c ∈ as, c.live = false)
    (now : Int) :
    (m.calls R cs).Decor R s = (m.WC.FormatMsg m.msg, m.calls R cs) ∧
    (a.calls R as).Decor R s now = (a.WC.FormatMsg a.msg, a.calls R as) ∧
    (∀ (s0 : Statistics) (t0 : Int), s0.Completed = false →
      (((m.Decor R s0).2.calls R cs).Decor R s).1 = (m.Decor R s0).1 ∧
      (((a.Decor R s0 t0).2.calls R as).Decor R s now).1 = (a.Decor R s0 t0).1) ∧
    (((MovingAverageSpeed m.producer m.average m.acc m.WC).calls R cs).Decor R s).1 =
      m.WC.FormatMsg [] ∧
    (((NewAverageSpeed a.producer a.startTime a.WC).calls R as).Decor R s now).1 =
      a.WC.FormatMsg [] := by
  have hm : ∀ d : movingAverageSpeed α,
      (d.calls R cs).Decor R s = (d.WC.FormatMsg d.msg, d.calls R cs) := by
    intro d
    obtain ⟨h1, h2, _⟩ := moving_calls_quiet R cs d hcs
    rw [moving_Decor_completed R _ s hs, h1, h2]
  have ha : ∀ (d : averageSpeed) (t : Int),
      (d.calls R as).Decor R s t = (d.WC.FormatMsg d.msg, d.calls R as) := by
    intro d t
    obtain ⟨h1, h2, _⟩ := average_calls_quiet R as d has
    rw [average_Decor_completed R _ s t hs, h1, h2]
  refine ⟨hm m, ha a now, ?_, ?_, ?_⟩
  · intro s0 t0 hs0
    constructor
    · rw [hm]
      simp [movingAverageSpeed.Decor, hs0]
    · rw [ha]
      simp [averageSpeed.Decor, hs0]
  · rw [hm]
    rfl
  · rw [ha]
    rfl

/-- C5 at the two example decorators. -/
theorem C5_freeze_on_completion_witness :
    demoDone.Completed = true ∧
    (∀ c ∈ demoMovingCalls, c.live = false) ∧
    (∀ c ∈ demoAverageCalls, c.live = false) ∧
    (demoMovingShown.calls Rounding.exact demoMovingCalls).Decor Rounding.exact demoDone =
      (demoMovingShown.WC.FormatMsg demoMovingShown.msg,
        demoMovingShown.calls Rounding.exact demoMovingCalls) ∧
    (demoAverage.calls Rounding.exact demoAverageCalls).Decor Rounding.exact demoDone 90 =
      (demoAverage.WC.FormatMsg demoAverage.msg,
        demoAverage.calls Rounding.exact demoAverageCalls) :=
  ⟨rfl, by simp [demoMovingCalls, MovingCall.live, demoDone],
    by simp [demoAverageCalls, AverageCall.live, demoDone],
    (C5_freeze_on_completion Rounding.exact demoDone rfl demoMovingShown demoMovingCalls
      (by simp [demoMovingCalls, MovingCall.live, demoDone])
      demoAverage demoAverageCalls
      (by simp [demoAverageCalls, AverageCall.live, demoDone]) 90).1,
    (C5_freeze_on_completion Rounding.exact demoDone rfl demoMovingShown demoMovingCalls
      (by simp [demoMovingCalls, MovingCall.live, demoDone])
      demoAverage demoAverageCalls
      (by simp [demoAverageCalls, AverageCall.live, demoDone]) 90).2.1⟩

/-! ## Theorems: decor/speed.go, `FmtAsSpeed` and the producers -/

theorem FmtAsSpeed_Format (f : Formatter) (st : State) (verb : Char) :
    (FmtAsSpeed f).Format st verb =
      match f.Format st verb with
      | Except.error e => Except.error e
      | Except.ok st1 => Except.ok { st1 with buf := st1.buf ++ ['/', 's'] } := by
  simp only [FmtAsSpeed, speedFormatter.Format, State.WriteString]

theorem doPrintf_append (a : Operand) (xs ys : Str) :
    ∀ (m : Mode) (p : Printer),
      doPrintf a m p (xs ++ ys) =
        match scan a m p xs with
        | none => none
        | some (m1, p1) => doPrintf a m1 p1 ys := by
  induction xs with
  | nil => intro m p; simp [scan]
  | cons c cs ih =>
    intro m p
    simp only [List.cons_append, doPrintf, scan]
    cases h : p.step a m c with
    | none => simp
    | some r => obtain ⟨m1, p1⟩ := r; simp [ih]

theorem scan_text (a : Operand) (pre : Str) :
    ∀ p : Printer, (∀ c ∈ pre, c ≠ '%') →
      scan a Mode.text p pre = some (Mode.text, { p with buf := p.buf ++ pre }) := by
  induction pre with
  | nil => intro p _; simp [scan]
  | cons c cs ih =>
    intro p h
    have hc : c ≠ '%' := h c (List.mem_cons_self c cs)
    simp only [scan, Printer.step, if_neg hc]
    rw [ih _ (fun c' hc' => h c' (List.mem_cons_of_mem c hc'))]
    simp

theorem scan_flags (a : Operand) (fs : Str) :
    ∀ p : Printer, (∀ c ∈ fs, c ∈ ['#', '0', '+', '-', ' ']) →
      ∃ p1, scan a Mode.flags p fs = some (Mode.flags, p1) ∧
        p1.buf = p.buf ∧ p1.argNum = p.argNum := by
  induction fs with
  | nil => intro p _; exact ⟨p, by simp [scan]⟩
  | cons c cs ih =>
    intro p h
    have hrest : ∀ c' ∈ cs, c' ∈ ['#', '0', '+', '-', ' '] :=
      fun c' hc' => h c' (List.mem_cons_of_mem c hc')
    have hc := h c (List.mem_cons_self c cs)
    simp only [List.mem_cons, List.mem_singleton, List.not_mem_nil, or_false] at hc
    rcases hc with rfl | rfl | rfl | rfl | rfl
    all_goals
      simp only [scan, Printer.step]
      simp only [Char.reduceEq, if_true, if_false]
      obtain ⟨p1, h1, h2, h3⟩ := ih _ hrest
      exact ⟨p1, h1, h2, h3⟩

theorem Printer.Keeps.trans {p q r : Printer} (h1 : p.Keeps q) (h2 : q.Keeps r) :
    p.Keeps r :=
  ⟨h2.1.trans h1.1, h2.2.trans h1.2⟩

theorem isDigit_ne {c x : Char} (hc : isDigit c = true) (hx : isDigit x = false) : c ≠ x := by
  rintro rfl
  rw [hc] at hx
  exact Bool.noConfusion hx

theorem isLetter_ne {c x : Char} (hc : isLetter c = true) (hx : isLetter x = false) :
    c ≠ x := by
  rintro rfl
  rw [hc] at hx
  exact Bool.noConfusion hx

theorem isLetter_not_digit {c : Char} (hc : isLetter c = true) : isDigit c = false := by
  simp only [isLetter, isDigit, decide_eq_true_eq, decide_eq_false_iff_not] at hc ⊢
  omega

theorem step_flags_digit (a : Operand) (p : Printer) (c : Char) (hd : isDigit c = true)
    (h0 : c ≠ '0') :
    ∃ p1, p.step a Mode.flags c = some (Mode.width 1, p1) ∧ p.Keeps p1 := by
  have h1 : c ≠ '#' := isDigit_ne hd (by decide)
  have h2 : c ≠ '+' := isDigit_ne hd (by decide)
  have h3 : c ≠ '-' := isDigit_ne hd (by decide)
  have h4 : c ≠ ' ' := isDigit_ne hd (by decide)
  have h5 : c ≠ '*' := isDigit_ne hd (by decide)
  simp only [Printer.step, if_neg h0, if_neg h1, if_neg h2, if_neg h3, if_neg h4, if_neg h5,
    hd, if_true]
  exact ⟨_, rfl, rfl, rfl⟩

theorem scan_width (a : Operand) (ws : Str) :
    ∀ (k : Nat) (p : Printer), (∀ c ∈ ws, isDigit c = true) → k + ws.length ≤ 6 →
      ∃ p1, scan a (Mode.width k) p ws = some (Mode.width (k + ws.length), p1) ∧
        p.Keeps p1 := by
  induction ws with
  | nil => intro k p _ _; exact ⟨p, by simp [scan], rfl, rfl⟩
  | cons c cs ih =>
    intro k p h hk
    have hd : isDigit c = true := h c (List.mem_cons_self c cs)
    have hk6 : k < 6 := by simp only [List.length_cons] at hk; omega
    simp only [scan, Printer.step, hd, if_true, hk6]
    obtain ⟨p1, h1, h2⟩ := ih (k + 1)
      { p with fl := { p.fl with wid := some (p.fl.wid.getD 0 * 10 + digitVal c) } }
      (fun c' hc' => h c' (List.mem_cons_of_mem c hc'))
      (by simp only [List.length_cons] at hk; omega)
    refine ⟨p1, ?_, ⟨h2.1, h2.2⟩⟩
    rw [h1]
    simp only [List.length_cons]
    congr 3
    omega

theorem scan_prec (a : Operand) (ps : Str) :
    ∀ (k : Nat) (p : Printer), (∀ c ∈ ps, isDigit c = true) → k + ps.length ≤ 6 →
      ∃ p1, scan a (Mode.prec k) p ps = some (Mode.prec (k + ps.length), p1) ∧
        p.Keeps p1 := by
  induction ps with
  | nil => intro k p _ _; exact ⟨p, by simp [scan], rfl, rfl⟩
  | cons c cs ih =>
    intro k p h hk
    have hd : isDigit c = true := h c (List.mem_cons_self c cs)
    have hk6 : k < 6 := by simp only [List.length_cons] at hk; omega
    simp only [scan, Printer.step, hd, if_true, hk6]
    obtain ⟨p1, h1, h2⟩ := ih (k + 1)
      { p with fl := { p.fl with prec := some (p.fl.prec.getD 0 * 10 + digitVal c) } }
      (fun c' hc' => h c' (List.mem_cons_of_mem c hc'))
      (by simp only [List.length_cons] at hk; omega)
    refine ⟨p1, ?_, ⟨h2.1, h2.2⟩⟩
    rw [h1]
    simp only [List.length_cons]
    congr 3
    omega

/-- The width of a directive: after the flags, digits that do not start with `0`. -/
theorem scan_flags_width (a : Operand) (ws : Str) (p : Printer)
    (h : ∀ c ∈ ws, isDigit c = true) (h0 : ws.head? ≠ some '0') (hl : ws.length ≤ 6) :
    ∃ m p1, scan a Mode.flags p ws = some (m, p1) ∧ p.Keeps p1 ∧
      (m = Mode.flags ∨ ∃ k, m = Mode.width k) := by
  cases ws with
  | nil => exact ⟨Mode.flags, p, by simp [scan], ⟨rfl, rfl⟩, Or.inl rfl⟩
  | cons c cs =>
    have hd : isDigit c = true := h c (List.mem_cons_self c cs)
    have hc0 : c ≠ '0' := by
      intro hc
      apply h0
      simp [hc]
    obtain ⟨p1, h1, hk1⟩ := step_flags_digit a p c hd hc0
    obtain ⟨p2, h2, hk2⟩ := scan_width a cs 1 p1
      (fun c' hc' => h c' (List.mem_cons_of_mem c hc'))
      (by simp only [List.length_cons] at hl; omega)
    refine ⟨Mode.width (1 + cs.length), p2, ?_, hk1.trans hk2, Or.inr ⟨_, rfl⟩⟩
    simp only [scan, h1, h2]

/-- The precision of a directive: a `.` and digits, after the flags or the width. -/
theorem scan_dot (a : Operand) (ps : Str) (m : Mode) (p : Printer)
    (hm : m = Mode.flags ∨ ∃ k, m = Mode.width k)
    (h : ∀ c ∈ ps, isDigit c = true) (hl : ps.length ≤ 6) :
    ∃ m1 p1, scan a m p ('.' :: ps) = some (m1, p1) ∧ p.Keeps p1 ∧
      m1.inDirective = true := by
  have hstep : ∃ p0, p.step a m '.' = some (Mode.dot, p0) ∧ p.Keeps p0 := by
    rcases hm with rfl | ⟨k, rfl⟩
    · simp only [Printer.step, Char.reduceEq, if_false, if_true]
      have hd : isDigit '.' = false := by decide
      simp only [hd]
      exact ⟨_, rfl, rfl, rfl⟩
    · have hd : isDigit '.' = false := by decide
      simp only [Printer.step, hd, if_true]
      exact ⟨_, rfl, rfl, rfl⟩
  obtain ⟨p0, h0, hk0⟩ := hstep
  cases ps with
  | nil => exact ⟨Mode.dot, p0, by simp [scan, h0], hk0, rfl⟩
  | cons c cs =>
    have hd : isDigit c = true := h c (List.mem_cons_self c cs)
    have hstar : c ≠ '*' := isDigit_ne hd (by decide)
    obtain ⟨p2, h2, hk2⟩ := scan_prec a cs 1
      { p0 with fl := { p0.fl with prec := some (digitVal c) } }
      (fun c' hc' => h c' (List.mem_cons_of_mem c hc'))
      (by simp only [List.length_cons] at hl; omega)
    refine ⟨Mode.prec (1 + cs.length), p2, ?_, hk0.trans ⟨hk2.1, hk2.2⟩, rfl⟩
    rw [scan, h0]
    simp only [scan, Printer.step, if_neg hstar, hd, if_true]
    exact h2

/-- A letter ends the directive: inside a directive it is read as the verb. -/
theorem step_letter (a : Operand) (m : Mode) (p : Printer) (v : Char)
    (hm : m.inDirective = true) (hv : isLetter v = true) :
    p.step a m v = p.verb a v := by
  have hd : isDigit v = false := isLetter_not_digit hv
  have h1 : v ≠ '#' := isLetter_ne hv (by decide)
  have h2 : v ≠ '0' := isLetter_ne hv (by decide)
  have h3 : v ≠ '+' := isLetter_ne hv (by decide)
  have h4 : v ≠ '-' := isLetter_ne hv (by decide)
  have h5 : v ≠ ' ' := isLetter_ne hv (by decide)
  have h6 : v ≠ '*' := isLetter_ne hv (by decide)
  have h7 : v ≠ '.' := isLetter_ne hv (by decide)
  cases m with
  | text => simp [Mode.inDirective] at hm
  | flags =>
    simp only [Printer.step, if_neg h1, if_neg h2, if_neg h3, if_neg h4, if_neg h5,
      if_neg h6, if_neg h7, hd, Bool.false_eq_true, if_false]
  | width k =>
    simp only [Printer.step, if_neg h7, hd, Bool.false_eq_true, if_false]
  | dot =>
    simp only [Printer.step, if_neg h6, hd, Bool.false_eq_true, if_false]
  | prec k =>
    simp only [Printer.step, hd, Bool.false_eq_true, if_false]

/-- The verb prints the operand when it is the first directive to use it. -/
theorem verb_prints (a : Operand) (p : Printer) (v : Char) (st : State)
    (hv : isLetter v = true) (hT : v ≠ 'T') (hp : v ≠ 'p') (hw : v ≠ 'w')
    (harg : p.argNum = 0) (hf : a.Format { buf := p.buf, fl := p.fl } v = Except.ok st) :
    p.verb a v = some (Mode.text, { buf := st.buf, fl := p.fl, argNum := 1 }) := by
  have h1 : v ≠ '[' := isLetter_ne hv (by decide)
  have h2 : v ≠ '%' := isLetter_ne hv (by decide)
  simp [Printer.verb, h1, h2, harg, hT, hp, hw, hf]

/-- A format string that ends in the verb of its one directive prints the
operand last: the text ends as the operand's text does. -/
theorem Sprintf_ends_in_verb (a : Operand) (format : Str) (h : EndsInVerb format)
    (tail : Str)
    (hok : ∀ (st : State) (c : Char), ∃ st1, a.Format st c = Except.ok st1 ∧ tail <:+ st1.buf) :
    ∃ out, Sprintf format a = some out ∧ tail <:+ out := by
  obtain ⟨pre, fs, ws, ds, v, rfl, hpre, hfs, hws, hws0, hwl, hds, hv, hT, hp, hw⟩ := h
  unfold Sprintf
  rw [doPrintf_append, scan_text a pre _ hpre]
  simp only [doPrintf, Printer.step, if_true, List.append_assoc]
  obtain ⟨p1, h1, hk1⟩ := scan_flags a fs
    { buf := [] ++ pre, fl := Flags.clear, argNum := 0 } hfs
  rw [doPrintf_append, h1]
  obtain ⟨m2, p2, h2, hk2, hm2⟩ := scan_flags_width a ws p1 hws hws0 hwl
  simp only []
  rw [doPrintf_append, h2]
  simp only []
  have hdir : ∃ m3 p3, scan a m2 p2 ds = some (m3, p3) ∧ p2.Keeps p3 ∧
      m3.inDirective = true := by
    rcases hds with rfl | ⟨ps, rfl, hps, hpl⟩
    · refine ⟨m2, p2, by simp [scan], ⟨rfl, rfl⟩, ?_⟩
      rcases hm2 with rfl | ⟨k, rfl⟩ <;> rfl
    · exact scan_dot a ps m2 p2 hm2 hps hpl
  obtain ⟨m3, p3, h3, hk3, hm3⟩ := hdir
  rw [doPrintf_append, h3]
  simp only []
  have hkeep : Printer.Keeps { buf := [] ++ pre, fl := Flags.clear, argNum := 0 } p3 :=
    Printer.Keeps.trans (Printer.Keeps.trans hk1 hk2) hk3
  obtain ⟨st1, hst, htail⟩ := hok { buf := p3.buf, fl := p3.fl } v
  have harg : p3.argNum = 0 := hkeep.2
  rw [doPrintf, step_letter a m3 p3 v hm3 hv, verb_prints a p3 v st1 hv hT hp hw harg hst]
  simp only [doPrintf, Printer.finish]
  exact ⟨st1.buf, by simp, htail⟩

/-- C7, as amended: `FmtAsSpeed(f).Format` writes what `f.Format` writes with
the same state and verb, followed by `/s` (and panics when `f` does). The
speed producers for `SizeB1024` and `SizeB1000` return
`Sprintf(format, FmtAsSpeed(...))`; their text ends in `/s` when the format
string ends in the verb of its one directive and the unit's `Format` returns
normally. -/
theorem C7_FmtAsSpeed_appends (E : Units) (hE : E.Returns) (format : Str)
    (hfmt : EndsInVerb format) (speed : F64) (f : Formatter) (st : State) (verb : Char) :
    (FmtAsSpeed f).Format st verb =
      (match f.Format st verb with
        | Except.error e => Except.error e
        | Except.ok st1 => Except.ok { st1 with buf := st1.buf ++ ['/', 's'] }) ∧
    (∃ out, chooseSpeedProducer E UnitType.SizeB1024 format speed = some out ∧
      ['/', 's'] <:+ out) ∧
    (∃ out, chooseSpeedProducer E UnitType.SizeB1000 format speed = some out ∧
      ['/', 's'] <:+ out) := by
  refine ⟨FmtAsSpeed_Format f st verb, ?_, ?_⟩
  · apply Sprintf_ends_in_verb _ format hfmt
    intro st0 c
    obtain ⟨st1, h1⟩ := (hE (E.toInt64 (F64.Round speed)) st0 c).1
    refine ⟨{ st1 with buf := st1.buf ++ ['/', 's'] }, ?_, List.suffix_append _ _⟩
    simp only [FmtAsSpeed_Format, h1]
  · apply Sprintf_ends_in_verb _ format hfmt
    intro st0 c
    obtain ⟨st1, h1⟩ := (hE (E.toInt64 (F64.Round speed)) st0 c).2
    refine ⟨{ st1 with buf := st1.buf ++ ['/', 's'] }, ?_, List.suffix_append _ _⟩
    simp only [FmtAsSpeed_Format, h1]

theorem demoUnits_Returns : demoUnits.Returns := by
  intro n st c
  exact ⟨⟨_, rfl⟩, ⟨_, rfl⟩⟩

theorem endsInVerb_demo : EndsInVerb ['%', ' ', '.', '1', 'f'] := by
  refine ⟨[], [' '], [], ['.', '1'], 'f', rfl, ?_, ?_, ?_, ?_, ?_, ?_, ?_, ?_, ?_, ?_⟩
  · simp
  · simp
  · simp
  · simp
  · simp
  · exact Or.inr ⟨['1'], rfl, by simp [isDigit], by simp⟩
  · decide
  · decide
  · decide
  · decide

/-- C7 at the format `% .1f` of the documentation. -/
theorem C7_FmtAsSpeed_appends_witness :
    demoUnits.Returns ∧ EndsInVerb ['%', ' ', '.', '1', 'f'] ∧
    (∃ out, chooseSpeedProducer demoUnits UnitType.SizeB1024 ['%', ' ', '.', '1', 'f']
        (F64.finite 2048) = some out ∧ ['/', 's'] <:+ out) :=
  ⟨demoUnits_Returns, endsInVerb_demo,
    (C7_FmtAsSpeed_appends demoUnits demoUnits_Returns ['%', ' ', '.', '1', 'f']
      endsInVerb_demo (F64.finite 2048) (demoUnits.SizeB1024 0)
      { buf := [], fl := Flags.clear } 'f').2.1⟩

theorem demoUnits_toInt64 : demoUnits.toInt64 (F64.Round (F64.finite 2048)) = 2048 := by
  simp [Units.toInt64, F64.Round]
  norm_num

/-- C7 as stated fails on a format string with text after the verb: for the
unit `SizeB1024`, the format `%d!` and the speed 2048 the producer returns
`2KiB/s!`, which does not end in `/s`. -/
theorem C7_text_after_verb :
    chooseSpeedProducer demoUnits UnitType.SizeB1024 ['%', 'd', '!'] (F64.finite 2048) =
      some ['2', 'K', 'i', 'B', '/', 's', '!'] ∧
    ¬ (['/', 's'] <:+ ['2', 'K', 'i', 'B', '/', 's', '!']) := by
  constructor
  · unfold chooseSpeedProducer
    simp only [demoUnits_toInt64]
    decide
  · decide

end Mpb
